import Mathlib

/-!
Verification of the merge pipeline of `src/xlsxmerge.py`.

The program loads a list of (sheet name, table) pairs, computes a column
set with `compileColumns`, and then folds `pandas.concat` over the loaded
tables (`main`, lines 110-121), stamping a "Type" column into each table
first when `--include-sheet-name-as-type` is set.

Tables (pandas DataFrames) are modelled as an ordered list of column
names together with positional rows; a cell is `Option String`, `none`
standing for a missing value (NaN).  `pandas.concat` aligns rows by
column name, so row re-projection is modelled by name lookup.  Column
ORDER in the output is implementation-defined in the original program
(`compileColumns` returns a Python set in arbitrary iteration order and
`concat(sort=True)` re-sorts); every property below concerns the column
SET, so the model uses first-occurrence order throughout.
-/

namespace Xlsxmerge

/-- A cell value: `some v` is a present value, `none` a missing cell (NaN). -/
abbrev Cell := Option String

/-- A pandas DataFrame: an ordered list of column names, and rows stored
positionally (row `r` holds the value of column `cols[i]` at position `i`). -/
structure Frame where
  cols : List String
  rows : List (List Cell)
deriving Repr, DecidableEq

/-- Well-formedness of a frame: every row has one cell per column. -/
def Frame.WF (f : Frame) : Prop := ∀ r ∈ f.rows, r.length = f.cols.length

instance (f : Frame) : Decidable f.WF := by
  unfold Frame.WF; infer_instance

/-- Position of column `c` in a column list (first occurrence). -/
def colIdx (c : String) : List String → Option Nat
  | [] => none
  | d :: ds => if d = c then some 0 else (colIdx c ds).map (· + 1)

/-- Value of column `c` in a row laid out according to `cols`; `none` both
for a missing cell and for a column absent from the schema. -/
def cellAt (cols : List String) (row : List Cell) (c : String) : Cell :=
  match colIdx c cols with
  | some i => row.getD i none
  | none => none

/-- Re-project a row from schema `cols` onto schema `newCols` (pandas
column alignment during `concat`): columns shared with `cols` keep their
value, the others become missing cells. -/
def reindexRow (cols : List String) (row : List Cell) (newCols : List String) :
    List Cell :=
  newCols.map (cellAt cols row)

/-- The `join` argument of `pandas.concat`: `'outer'` or `'inner'`
(`main`, line 114). -/
inductive Join
  | outer
  | inner
deriving Repr, DecidableEq

/-- Columns of `pandas.concat((a, b), join=join)`: union of the two column
lists for an outer join, intersection for an inner join. -/
def concatCols : Join → List String → List String → List String
  | .outer, c1, c2 => (c1 ++ c2).dedup
  | .inner, c1, c2 => c1.filter (fun c => decide (c ∈ c2))

/-- `pandas.concat((f1, f2), ignore_index=True, sort=True, join=join)`
(`main`, line 121): columns combined according to the join mode, rows of
`f1` followed by rows of `f2`, each re-projected onto the combined columns. -/
def concatFrame (join : Join) (f1 f2 : Frame) : Frame :=
  let cols := concatCols join f1.cols f2.cols
  ⟨cols, f1.rows.map (fun r => reindexRow f1.cols r cols)
       ++ f2.rows.map (fun r => reindexRow f2.cols r cols)⟩

/-- `f[c] = v`, pandas column assignment with a scalar: overwrite column
`c` with `v` in every row when the column exists, otherwise append it. -/
def setCol (f : Frame) (c : String) (v : String) : Frame :=
  match colIdx c f.cols with
  | some i => ⟨f.cols, f.rows.map (fun r => r.set i (some v))⟩
  | none => ⟨f.cols ++ [c], f.rows.map (fun r => r ++ [some v])⟩

/-- One loaded `(sheet name, frame)` pair as it stands when it reaches the
`pandas.concat` call: `if args['include_type']: f[1]['Type'] = f[0]`
(`main`, lines 119-120). -/
def stampFrame (include_type : Bool) (p : String × Frame) : String × Frame :=
  if include_type then (p.1, setCol p.2 "Type" p.1) else p

/-- `compileColumns(frames, add_type)` (lines 81-100): a Python set seeded
with `"Type"` when `add_type` holds, then every frame's columns.  The set is
modelled as a deduplicated list in first-occurrence order. -/
def compileColumns (frames : List (String × Frame)) (add_type : Bool) :
    List String :=
  ((if add_type then ["Type"] else []) ++
    (frames.map (fun p => p.2.cols)).flatten).dedup

/-- The merge loop of `main` (lines 118-121), starting from `init`. -/
def mergeLoop (include_type : Bool) (join : Join) (init : Frame)
    (frames : List (String × Frame)) : Frame :=
  frames.foldl (fun out p => concatFrame join out (stampFrame include_type p).2)
    init

/-- The merged table produced by `main` (lines 110-121) from the loaded
frames: compile the column set, pick the join mode from
`common_columns_only`, start from an empty frame holding the compiled
columns, and fold the loop body over the loaded frames. -/
def merged (include_type common_columns_only : Bool)
    (frames : List (String × Frame)) : Frame :=
  mergeLoop include_type
    (if common_columns_only then Join.inner else Join.outer)
    ⟨compileColumns frames include_type, []⟩ frames

/-- The state of the merge after its first `n` iterations: the loop body
folded over the first `n` loaded frames (the column set is still compiled
from all of them, as in the program). -/
def mergedAfter (include_type common_columns_only : Bool)
    (frames : List (String × Frame)) (n : Nat) : Frame :=
  mergeLoop include_type
    (if common_columns_only then Join.inner else Join.outer)
    ⟨compileColumns frames include_type, []⟩ (frames.take n)

/-- The loaded frames as they stand after the merge loop finishes: each
has been stamped in place when `include_type` is set (`f[1]['Type'] = f[0]`
mutates the loaded frame). -/
def framesAfter (include_type : Bool) (frames : List (String × Frame)) :
    List (String × Frame) :=
  frames.map (stampFrame include_type)

/-- The block of output rows contributed by one loaded pair `p`: its
(stamped) rows, in their original order, re-projected onto the final
column list `fin`. -/
def blockRows (include_type : Bool) (fin : List String) (p : String × Frame) :
    List (List Cell) :=
  (stampFrame include_type p).2.rows.map
    (fun r => reindexRow (stampFrame include_type p).2.cols r fin)

/-- The merge loop seen as a fold of `concatFrame` over plain frames (the
stamped frames, once `stampFrame` has been applied). -/
def foldFrames (join : Join) (init : Frame) (gs : List Frame) : Frame :=
  gs.foldl (concatFrame join) init

/-- Concrete example input: a single sheet "S1" whose table has the one
column "A" and one row. -/
def exFs : List (String × Frame) := [("S1", ⟨["A"], [[some "x"]]⟩)]

/-- Concrete example input: two sheets with disjoint column sets
(columns "x" and "y" respectively). -/
def exFs2 : List (String × Frame) := [("A", ⟨["x"], []⟩), ("B", ⟨["y"], []⟩)]

/-- Concrete example input: two one-row sheets with different columns. -/
def exMix : List (String × Frame) :=
  [("S1", ⟨["A"], [[some "x"]]⟩), ("S2", ⟨["B"], [[some "y"]]⟩)]

/-! ### Column lookup -/

theorem colIdx_eq_none {c : String} {l : List String} :
    colIdx c l = none ↔ c ∉ l := by
  induction l with
  | nil => simp [colIdx]
  | cons d ds ih =>
    by_cases h : d = c
    · simp [colIdx, h]
    · simp only [colIdx, h, if_false, Option.map_eq_none', ih, List.mem_cons]
      constructor
      · rintro hn (rfl | hm)
        · exact h rfl
        · exact hn hm
      · intro hn
        exact fun hm => hn (Or.inr hm)

theorem colIdx_get {c : String} : ∀ {l : List String} {i : Nat},
    colIdx c l = some i → ∃ h : i < l.length, l[i] = c := by
  intro l
  induction l with
  | nil => intro i h; simp [colIdx] at h
  | cons d ds ih =>
    intro i h
    by_cases hd : d = c
    · simp only [colIdx, hd, if_true, Option.some_inj] at h
      subst h
      exact ⟨by simp, by simpa using hd⟩
    · simp only [colIdx, hd, if_false, Option.map_eq_some'] at h
      obtain ⟨j, hj, rfl⟩ := h
      obtain ⟨hlt, hget⟩ := ih hj
      exact ⟨by simpa using Nat.succ_lt_succ hlt, by simpa using hget⟩

theorem colIdx_nodup_get : ∀ {l : List String}, l.Nodup →
    ∀ {i : Nat} (hi : i < l.length), colIdx l[i] l = some i := by
  intro l
  induction l with
  | nil => intro _ i hi; simp at hi
  | cons d ds ih =>
    intro hnd i hi
    cases i with
    | zero => simp [colIdx]
    | succ j =>
      have hj : j < ds.length := by simpa using hi
      have hmem : ds[j] ∈ ds := List.getElem_mem hj
      have hd : ¬ d = ds[j] := by
        intro hEq
        exact (List.nodup_cons.mp hnd).1 (hEq ▸ hmem)
      have hcons : (d :: ds)[j + 1] = ds[j] := by simp
      rw [hcons]
      simp [colIdx, hd, ih (List.nodup_cons.mp hnd).2 hj]

theorem colIdx_append_of_mem {c : String} {l1 : List String}
    (l2 : List String) (h : c ∈ l1) :
    colIdx c (l1 ++ l2) = colIdx c l1 := by
  induction l1 with
  | nil => simp at h
  | cons d ds ih =>
    by_cases hd : d = c
    · simp [colIdx, hd]
    · have hds : c ∈ ds := by
        rcases List.mem_cons.mp h with rfl | hm
        · exact absurd rfl hd
        · exact hm
      simp [colIdx, hd, ih hds]

theorem colIdx_append_of_not_mem {c : String} {l1 : List String}
    (l2 : List String) (h : c ∉ l1) :
    colIdx c (l1 ++ l2) = (colIdx c l2).map (· + l1.length) := by
  induction l1 with
  | nil =>
    simp only [List.nil_append, List.length_nil]
    cases colIdx c l2 <;> simp
  | cons d ds ih =>
    have hd : ¬ d = c := fun hEq => h (hEq ▸ List.mem_cons_self d ds)
    have hds : c ∉ ds := fun hm => h (List.mem_cons_of_mem d hm)
    rw [List.cons_append]
    rw [show colIdx c (d :: (ds ++ l2)) = (colIdx c (ds ++ l2)).map (· + 1) by
      simp [colIdx, hd]]
    rw [ih hds]
    cases hcl : colIdx c l2 <;> simp [Nat.add_assoc]

/-! ### Cell access and re-projection -/

theorem cellAt_of_not_mem {cols : List String} {c : String} (h : c ∉ cols)
    (r : List Cell) : cellAt cols r c = none := by
  simp [cellAt, colIdx_eq_none.mpr h]

theorem cellAt_reindexRow {B : List String} {c : String} (hc : c ∈ B)
    (A : List String) (r : List Cell) :
    cellAt B (reindexRow A r B) c = cellAt A r c := by
  obtain ⟨i, hi⟩ : ∃ i, colIdx c B = some i := by
    cases h : colIdx c B with
    | none => exact absurd (colIdx_eq_none.mp h) (not_not.mpr hc)
    | some i => exact ⟨i, rfl⟩
  obtain ⟨hlt, hget⟩ := colIdx_get hi
  simp only [cellAt, reindexRow, hi]
  rw [List.getD_eq_getElem _ _ (by simpa using hlt)]
  simp only [List.getElem_map]
  rw [hget]
  rfl

theorem reindexRow_length (cols newCols : List String) (r : List Cell) :
    (reindexRow cols r newCols).length = newCols.length :=
  List.length_map _ _

theorem reindexRow_reindexRow {A B C : List String} {r : List Cell}
    (h : ∀ c ∈ C, c ∉ B → c ∉ A) :
    reindexRow B (reindexRow A r B) C = reindexRow A r C := by
  apply List.map_congr_left
  intro c hc
  by_cases hB : c ∈ B
  · exact cellAt_reindexRow hB A r
  · rw [cellAt_of_not_mem hB, cellAt_of_not_mem (h c hc hB)]

theorem reindexRow_self {A : List String} {r : List Cell} (hnd : A.Nodup)
    (hlen : r.length = A.length) : reindexRow A r A = r := by
  apply List.ext_getElem (by simp [reindexRow, hlen])
  intro i h1 h2
  simp only [reindexRow, List.getElem_map]
  have hi : i < A.length := by simpa [reindexRow] using h1
  have := colIdx_nodup_get hnd hi
  simp only [List.get_eq_getElem] at this
  simp only [cellAt, this]
  exact List.getD_eq_getElem r none h2

/-! ### Columns of concatenation -/

theorem mem_concatCols_outer {a b : List String} {c : String} :
    c ∈ concatCols .outer a b ↔ c ∈ a ∨ c ∈ b := by
  simp [concatCols, List.mem_dedup]

theorem mem_concatCols_inner {a b : List String} {c : String} :
    c ∈ concatCols .inner a b ↔ c ∈ a ∧ c ∈ b := by
  simp [concatCols, List.mem_filter]

theorem concatCols_nodup (j : Join) {a : List String} (b : List String)
    (h : a.Nodup) : (concatCols j a b).Nodup := by
  cases j
  · exact List.nodup_dedup _
  · exact h.filter _

theorem cols_concatFrame (j : Join) (f g : Frame) :
    (concatFrame j f g).cols = concatCols j f.cols g.cols := rfl

theorem rows_concatFrame (j : Join) (f g : Frame) :
    (concatFrame j f g).rows
      = f.rows.map (fun r => reindexRow f.cols r (concatCols j f.cols g.cols))
        ++ g.rows.map (fun r => reindexRow g.cols r (concatCols j f.cols g.cols)) :=
  rfl

theorem concatFrame_WF (j : Join) (f g : Frame) : (concatFrame j f g).WF := by
  intro r hr
  rw [rows_concatFrame] at hr
  rw [cols_concatFrame]
  rcases List.mem_append.mp hr with h | h <;>
    · obtain ⟨r0, _, rfl⟩ := List.mem_map.mp h
      exact reindexRow_length _ _ _

/-! ### Columns of the fold -/

theorem cols_foldFrames_outer {c : String} :
    ∀ (gs : List Frame) (init : Frame),
    c ∈ (foldFrames .outer init gs).cols ↔
      c ∈ init.cols ∨ ∃ g ∈ gs, c ∈ g.cols := by
  intro gs
  induction gs with
  | nil => intro init; simp [foldFrames]
  | cons g gs ih =>
    intro init
    have h1 : foldFrames .outer init (g :: gs)
        = foldFrames .outer (concatFrame .outer init g) gs := rfl
    rw [h1, ih]
    rw [cols_concatFrame]
    constructor
    · rintro (hc | ⟨g', hg', hcg⟩)
      · rcases mem_concatCols_outer.mp hc with h | h
        · exact Or.inl h
        · exact Or.inr ⟨g, List.mem_cons_self _ _, h⟩
      · exact Or.inr ⟨g', List.mem_cons_of_mem _ hg', hcg⟩
    · rintro (hc | ⟨g', hg', hcg⟩)
      · exact Or.inl (mem_concatCols_outer.mpr (Or.inl hc))
      · rcases List.mem_cons.mp hg' with rfl | hm
        · exact Or.inl (mem_concatCols_outer.mpr (Or.inr hcg))
        · exact Or.inr ⟨g', hm, hcg⟩

theorem cols_foldFrames_inner {c : String} :
    ∀ (gs : List Frame) (init : Frame),
    c ∈ (foldFrames .inner init gs).cols ↔
      c ∈ init.cols ∧ ∀ g ∈ gs, c ∈ g.cols := by
  intro gs
  induction gs with
  | nil => intro init; simp [foldFrames]
  | cons g gs ih =>
    intro init
    have h1 : foldFrames .inner init (g :: gs)
        = foldFrames .inner (concatFrame .inner init g) gs := rfl
    rw [h1, ih]
    rw [cols_concatFrame]
    constructor
    · rintro ⟨hc, hall⟩
      obtain ⟨hci, hcg⟩ := mem_concatCols_inner.mp hc
      refine ⟨hci, fun g' hg' => ?_⟩
      rcases List.mem_cons.mp hg' with rfl | hm
      · exact hcg
      · exact hall g' hm
    · rintro ⟨hci, hall⟩
      exact ⟨mem_concatCols_inner.mpr ⟨hci, hall g (List.mem_cons_self _ _)⟩,
        fun g' hm => hall g' (List.mem_cons_of_mem _ hm)⟩

theorem foldFrames_WF :
    ∀ (j : Join) (gs : List Frame) (init : Frame), init.WF →
    (foldFrames j init gs).WF := by
  intro j gs
  induction gs with
  | nil => intro init h; exact h
  | cons g gs ih => intro init _; exact ih _ (concatFrame_WF j init g)

theorem foldFrames_cols_nodup :
    ∀ (j : Join) (gs : List Frame) (init : Frame), init.cols.Nodup →
    (foldFrames j init gs).cols.Nodup := by
  intro j gs
  induction gs with
  | nil => intro init h; exact h
  | cons g gs ih =>
    intro init h
    exact ih _ (by rw [cols_concatFrame]; exact concatCols_nodup j _ h)

/-! ### Rows of the fold: the merged table is the ordered concatenation of
per-table blocks, each block the table's rows re-projected onto the final
column list. -/

theorem rows_foldFrames :
    ∀ (j : Join) (gs : List Frame) (init : Frame), init.WF → init.cols.Nodup →
    (foldFrames j init gs).rows
      = init.rows.map
          (fun r => reindexRow init.cols r (foldFrames j init gs).cols)
        ++ (gs.map (fun g => g.rows.map
            (fun r => reindexRow g.cols r (foldFrames j init gs).cols))).flatten := by
  intro j gs
  induction gs with
  | nil =>
    intro init hWF hND
    simp only [foldFrames, List.foldl_nil, List.map_nil, List.flatten_nil,
      List.append_nil]
    have hmap : init.rows.map (fun r => reindexRow init.cols r init.cols)
        = init.rows.map id :=
      List.map_congr_left (fun r hr => reindexRow_self hND (hWF r hr))
    rw [hmap, List.map_id]
  | cons g gs ih =>
    intro init hWF hND
    have h1 : foldFrames j init (g :: gs)
        = foldFrames j (concatFrame j init g) gs := rfl
    have hND' : (concatFrame j init g).cols.Nodup := by
      rw [cols_concatFrame]; exact concatCols_nodup j _ hND
    have hcond : ∀ c ∈ (foldFrames j (concatFrame j init g) gs).cols,
        c ∉ (concatFrame j init g).cols → c ∉ init.cols ∧ c ∉ g.cols := by
      intro c hc hn
      cases j with
      | outer =>
        rw [cols_concatFrame] at hn
        exact ⟨fun hm => hn (mem_concatCols_outer.mpr (Or.inl hm)),
          fun hm => hn (mem_concatCols_outer.mpr (Or.inr hm))⟩
      | inner =>
        exact absurd ((cols_foldFrames_inner gs _).mp hc).1 hn
    rw [h1, ih (concatFrame j init g) (concatFrame_WF j init g) hND']
    rw [rows_concatFrame, ← cols_concatFrame, List.map_append,
      List.map_map, List.map_map]
    have hinitblock : init.rows.map
        ((fun r => reindexRow (concatFrame j init g).cols r
            (foldFrames j (concatFrame j init g) gs).cols)
          ∘ (fun r => reindexRow init.cols r (concatFrame j init g).cols))
        = init.rows.map (fun r => reindexRow init.cols r
            (foldFrames j (concatFrame j init g) gs).cols) := by
      apply List.map_congr_left
      intro r _
      exact reindexRow_reindexRow (fun c hc hn => (hcond c hc hn).1)
    have hgblock : g.rows.map
        ((fun r => reindexRow (concatFrame j init g).cols r
            (foldFrames j (concatFrame j init g) gs).cols)
          ∘ (fun r => reindexRow g.cols r (concatFrame j init g).cols))
        = g.rows.map (fun r => reindexRow g.cols r
            (foldFrames j (concatFrame j init g) gs).cols) := by
      apply List.map_congr_left
      intro r _
      exact reindexRow_reindexRow (fun c hc hn => (hcond c hc hn).2)
    rw [hinitblock, hgblock]
    simp [List.append_assoc]

/-! ### Column assignment -/

theorem cols_setCol {f : Frame} {c : String} (v : String) (c' : String) :
    c' ∈ (setCol f c v).cols ↔ c' ∈ f.cols ∨ c' = c := by
  cases h : colIdx c f.cols with
  | some i =>
    have hmem : c ∈ f.cols := by
      obtain ⟨hlt, hget⟩ := colIdx_get h
      exact hget ▸ List.getElem_mem hlt
    simp only [setCol, h]
    constructor
    · exact Or.inl
    · rintro (hm | rfl)
      · exact hm
      · exact hmem
  | none => simp [setCol, h]

theorem rows_length_setCol (f : Frame) (c v : String) :
    (setCol f c v).rows.length = f.rows.length := by
  unfold setCol
  cases colIdx c f.cols <;> simp

theorem WF_setCol {f : Frame} (hWF : f.WF) (c v : String) : (setCol f c v).WF := by
  intro r hr
  cases h : colIdx c f.cols with
  | some i =>
    simp only [setCol, h] at hr ⊢
    obtain ⟨r0, hr0, rfl⟩ := List.mem_map.mp hr
    simp [hWF r0 hr0]
  | none =>
    simp only [setCol, h] at hr ⊢
    obtain ⟨r0, hr0, rfl⟩ := List.mem_map.mp hr
    simp [hWF r0 hr0]

theorem cellAt_nil (cols : List String) (c : String) :
    cellAt cols [] c = none := by
  unfold cellAt
  cases colIdx c cols <;> simp

theorem cellAt_setCol_self {f : Frame} (hWF : f.WF) (c v : String) :
    ∀ r ∈ (setCol f c v).rows, cellAt (setCol f c v).cols r c = some v := by
  intro r hr
  cases h : colIdx c f.cols with
  | some i =>
    simp only [setCol, h] at hr ⊢
    obtain ⟨r0, hr0, rfl⟩ := List.mem_map.mp hr
    have hlt : i < r0.length := by
      obtain ⟨hl, _⟩ := colIdx_get h
      rw [hWF r0 hr0]
      exact hl
    simp only [cellAt, h]
    rw [List.getD_eq_getElem _ _ (by simpa using hlt)]
    simp
  | none =>
    simp only [setCol, h] at hr ⊢
    obtain ⟨r0, hr0, rfl⟩ := List.mem_map.mp hr
    have hidx : colIdx c (f.cols ++ [c]) = some f.cols.length := by
      rw [colIdx_append_of_not_mem _ (colIdx_eq_none.mp h)]
      simp [colIdx]
    simp only [cellAt, hidx]
    rw [← hWF r0 hr0]
    rw [List.getD_eq_getElem _ _ (by simp)]
    simp

theorem cellAt_setCol_ne {f : Frame} (hWF : f.WF) {c c' : String} (hne : c' ≠ c)
    (v : String) (j : Nat) :
    cellAt (setCol f c v).cols ((setCol f c v).rows.getD j []) c'
      = cellAt f.cols (f.rows.getD j []) c' := by
  by_cases hj : j < f.rows.length
  · cases h : colIdx c f.cols with
    | some i =>
      simp only [setCol, h]
      rw [List.getD_eq_getElem _ _ (by simpa using hj),
        List.getD_eq_getElem _ _ hj, List.getElem_map]
      cases h' : colIdx c' f.cols with
      | some k =>
        have hik : i ≠ k := by
          intro hEq
          obtain ⟨hlt, hgc⟩ := colIdx_get h
          obtain ⟨hlt', hgc'⟩ := colIdx_get h'
          subst hEq
          exact hne (hgc' ▸ hgc ▸ rfl)
        simp only [cellAt, h']
        rw [List.getD_eq_getElem?_getD, List.getD_eq_getElem?_getD,
          List.getElem?_set_ne hik]
      | none => simp only [cellAt, h']
    | none =>
      simp only [setCol, h]
      rw [List.getD_eq_getElem _ _ (by simpa using hj),
        List.getD_eq_getElem _ _ hj, List.getElem_map]
      cases h' : colIdx c' f.cols with
      | some k =>
        have hc' : c' ∈ f.cols := by
          obtain ⟨hlt, hgc⟩ := colIdx_get h'
          exact hgc ▸ List.getElem_mem hlt
        have hidx : colIdx c' (f.cols ++ [c]) = some k := by
          rw [colIdx_append_of_mem _ hc', h']
        simp only [cellAt, h', hidx]
        have hk : k < (f.rows[j]).length := by
          obtain ⟨hlt, _⟩ := colIdx_get h'
          rw [hWF _ (List.getElem_mem hj)]
          exact hlt
        rw [List.getD_eq_getElem?_getD, List.getD_eq_getElem?_getD,
          List.getElem?_append_left hk]
      | none =>
        have hidx : colIdx c' (f.cols ++ [c]) = none := by
          rw [colIdx_append_of_not_mem _ (colIdx_eq_none.mp h')]
          have hcc : ¬ c = c' := fun hEq => hne hEq.symm
          simp [colIdx, hcc]
        simp only [cellAt, h', hidx]
  · have h1 : (setCol f c v).rows.getD j [] = [] := by
      apply List.getD_eq_default
      rw [rows_length_setCol]
      omega
    have h2 : f.rows.getD j [] = [] := by
      apply List.getD_eq_default
      omega
    rw [h1, h2, cellAt_nil, cellAt_nil]

/-! ### Stamping the Type column -/

theorem stampFrame_fst (it : Bool) (p : String × Frame) :
    (stampFrame it p).1 = p.1 := by
  unfold stampFrame
  cases it <;> simp

theorem stampFrame_false (p : String × Frame) : stampFrame false p = p := rfl

theorem rows_length_stampFrame (it : Bool) (p : String × Frame) :
    (stampFrame it p).2.rows.length = p.2.rows.length := by
  unfold stampFrame
  cases it
  · simp
  · simp [rows_length_setCol]

theorem cols_stampFrame (it : Bool) (p : String × Frame) (c : String) :
    c ∈ (stampFrame it p).2.cols ↔
      c ∈ p.2.cols ∨ (it = true ∧ c = "Type") := by
  unfold stampFrame
  cases it
  · simp
  · simp [cols_setCol]

theorem WF_stampFrame {p : String × Frame} (hWF : p.2.WF) (it : Bool) :
    (stampFrame it p).2.WF := by
  unfold stampFrame
  cases it
  · exact hWF
  · exact WF_setCol hWF _ _

/-! ### The merge pipeline -/

theorem mergeLoop_eq_foldFrames (it : Bool) (j : Join) (init : Frame)
    (fs : List (String × Frame)) :
    mergeLoop it j init fs
      = foldFrames j init (fs.map (fun p => (stampFrame it p).2)) := by
  simp [mergeLoop, foldFrames, List.foldl_map]

theorem mem_compileColumns {fs : List (String × Frame)} {it : Bool}
    {c : String} :
    c ∈ compileColumns fs it ↔
      (it = true ∧ c = "Type") ∨ ∃ p ∈ fs, c ∈ p.2.cols := by
  unfold compileColumns
  rw [List.mem_dedup, List.mem_append]
  cases it <;> simp [List.mem_flatten] <;> aesop

theorem cols_mergeLoop_outer (it : Bool) (init : Frame)
    (fs : List (String × Frame)) (c : String) :
    c ∈ (mergeLoop it .outer init fs).cols ↔
      c ∈ init.cols ∨ ∃ p ∈ fs, c ∈ (stampFrame it p).2.cols := by
  rw [mergeLoop_eq_foldFrames, cols_foldFrames_outer]
  simp
  aesop

theorem cols_mergeLoop_inner (it : Bool) (init : Frame)
    (fs : List (String × Frame)) (c : String) :
    c ∈ (mergeLoop it .inner init fs).cols ↔
      c ∈ init.cols ∧ ∀ p ∈ fs, c ∈ (stampFrame it p).2.cols := by
  rw [mergeLoop_eq_foldFrames, cols_foldFrames_inner]
  simp
  aesop

theorem cols_merged_union (it : Bool) (fs : List (String × Frame)) (c : String) :
    c ∈ (merged it false fs).cols ↔
      (it = true ∧ c = "Type") ∨ ∃ p ∈ fs, c ∈ p.2.cols := by
  have h : merged it false fs
      = mergeLoop it .outer ⟨compileColumns fs it, []⟩ fs := rfl
  rw [h, cols_mergeLoop_outer]
  constructor
  · rintro (h0 | ⟨p, hp, hc⟩)
    · exact mem_compileColumns.mp h0
    · rcases (cols_stampFrame it p c).mp hc with hc' | hT
      · exact Or.inr ⟨p, hp, hc'⟩
      · exact Or.inl hT
  · rintro (hT | ⟨p, hp, hc⟩)
    · exact Or.inl (mem_compileColumns.mpr (Or.inl hT))
    · exact Or.inl (mem_compileColumns.mpr (Or.inr ⟨p, hp, hc⟩))

theorem cols_merged_inter_raw (it : Bool) (fs : List (String × Frame))
    (c : String) :
    c ∈ (merged it true fs).cols ↔
      c ∈ compileColumns fs it ∧ ∀ p ∈ fs, c ∈ (stampFrame it p).2.cols := by
  have h : merged it true fs
      = mergeLoop it .inner ⟨compileColumns fs it, []⟩ fs := rfl
  rw [h, cols_mergeLoop_inner]

theorem cols_merged_inter {it : Bool} {fs : List (String × Frame)}
    (hne : fs ≠ []) (c : String) :
    c ∈ (merged it true fs).cols ↔
      (it = true ∧ c = "Type") ∨ ∀ p ∈ fs, c ∈ p.2.cols := by
  rw [cols_merged_inter_raw]
  obtain ⟨p0, hp0⟩ : ∃ p, p ∈ fs := List.exists_mem_of_ne_nil fs hne
  constructor
  · rintro ⟨hcc, hall⟩
    by_cases hT : it = true ∧ c = "Type"
    · exact Or.inl hT
    · refine Or.inr (fun p hp => ?_)
      rcases (cols_stampFrame it p c).mp (hall p hp) with hc | hT'
      · exact hc
      · exact absurd hT' hT
  · rintro (hT | hall)
    · exact ⟨mem_compileColumns.mpr (Or.inl hT),
        fun p hp => (cols_stampFrame it p c).mpr (Or.inr hT)⟩
    · exact ⟨mem_compileColumns.mpr (Or.inr ⟨p0, hp0, hall p0 hp0⟩),
        fun p hp => (cols_stampFrame it p c).mpr (Or.inl (hall p hp))⟩

theorem rows_merged (it cco : Bool) (fs : List (String × Frame)) :
    (merged it cco fs).rows
      = (fs.map (blockRows it (merged it cco fs).cols)).flatten := by
  unfold merged
  rw [mergeLoop_eq_foldFrames]
  rw [rows_foldFrames _ _ _ (fun r hr => absurd hr (List.not_mem_nil r))
    (List.nodup_dedup _)]
  simp only [List.map_nil, List.nil_append, List.map_map]
  congr 1

theorem rows_length_merged (it cco : Bool) (fs : List (String × Frame)) :
    (merged it cco fs).rows.length
      = (fs.map (fun p => p.2.rows.length)).sum := by
  rw [rows_merged, List.length_flatten, List.map_map]
  congr 1
  apply List.map_congr_left
  intro p _
  simp [blockRows, Function.comp, rows_length_stampFrame]

/-! ### Cells of the output blocks -/

theorem cellAt_blockRows_not_mem {it : Bool} {fin : List String}
    {p : String × Frame} {c : String} (hc : c ∉ (stampFrame it p).2.cols) :
    ∀ r ∈ blockRows it fin p, cellAt fin r c = none := by
  intro r hr
  obtain ⟨r0, hr0, rfl⟩ := List.mem_map.mp hr
  by_cases hfin : c ∈ fin
  · rw [cellAt_reindexRow hfin]
    exact cellAt_of_not_mem hc r0
  · exact cellAt_of_not_mem hfin _

theorem cellAt_blockRows_type {fin : List String} {p : String × Frame}
    (hWF : p.2.WF) (hfin : "Type" ∈ fin) :
    ∀ r ∈ blockRows true fin p, cellAt fin r "Type" = some p.1 := by
  intro r hr
  obtain ⟨r0, hr0, rfl⟩ := List.mem_map.mp hr
  rw [cellAt_reindexRow hfin]
  exact cellAt_setCol_self hWF _ _ r0 hr0

theorem type_mem_merged (cco : Bool) (fs : List (String × Frame)) :
    "Type" ∈ (merged true cco fs).cols := by
  cases cco
  · exact (cols_merged_union true fs "Type").mpr (Or.inl ⟨rfl, rfl⟩)
  · exact (cols_merged_inter_raw true fs "Type").mpr
      ⟨mem_compileColumns.mpr (Or.inl ⟨rfl, rfl⟩),
       fun p _ => (cols_stampFrame true p "Type").mpr (Or.inr ⟨rfl, rfl⟩)⟩

theorem cellAt_stampFrame_ne {p : String × Frame} (hWF : p.2.WF) {c : String}
    (hne : c ≠ "Type") (it : Bool) (j : Nat) :
    cellAt (stampFrame it p).2.cols ((stampFrame it p).2.rows.getD j []) c
      = cellAt p.2.cols (p.2.rows.getD j []) c := by
  cases it
  · rfl
  · exact cellAt_setCol_ne hWF hne p.1 j

/-! ### Claims -/

/-- C1: for every sequence of loaded tables, in both join modes (and for
either value of `include_type`), the merged table's row count equals the
sum of the loaded tables' row counts. -/
theorem C1_row_count (it cco : Bool) (fs : List (String × Frame)) :
    (merged it cco fs).rows.length = (fs.map (fun p => p.2.rows.length)).sum :=
  rows_length_merged it cco fs

/-- C2: in union join mode the merged table's column set is exactly the
union of every table's column names, plus "Type" when `add_type_column`
is set; in particular no input column is ever dropped. -/
theorem C2_union_column_set (it : Bool) (fs : List (String × Frame))
    (c : String) :
    c ∈ (merged it false fs).cols ↔
      ((it = true ∧ c = "Type") ∨ ∃ p ∈ fs, c ∈ p.2.cols) :=
  cols_merged_union it fs c

/-- C3 counterexample: with `add_type_column` set and a single loaded table
whose only column is "A", the intersection-mode output contains the column
"Type" although "Type" belongs to no loaded table — so the output column
set is not the intersection of the tables' column sets, and "Type" is
forced in even though it is not common to the tables. -/
theorem C3_counterexample :
    "Type" ∈ (merged true true exFs).cols ∧ ∀ p ∈ exFs, "Type" ∉ p.2.cols := by
  decide

/-- C3 amended: in intersection join mode, for a nonempty table sequence,
the merged table's column set is the intersection of every table's column
names when `add_type_column` is false; when `add_type_column` is true the
"Type" column is additionally forced into the set (the merger inserts it
into every table before concatenation). -/
theorem C3_intersection_column_set (it : Bool) (fs : List (String × Frame))
    (hne : fs ≠ []) (c : String) :
    c ∈ (merged it true fs).cols ↔
      ((it = true ∧ c = "Type") ∨ ∀ p ∈ fs, c ∈ p.2.cols) :=
  cols_merged_inter hne c

/-- C3 witness: the amended theorem applied to the concrete input `exFs`. -/
theorem C3_intersection_column_set_witness :
    exFs ≠ []
    ∧ ("A" ∈ (merged false true exFs).cols ↔
        ((false = true ∧ "A" = "Type") ∨ ∀ p ∈ exFs, "A" ∈ p.2.cols)) :=
  ⟨by decide, C3_intersection_column_set false exFs (by decide) "A"⟩

/-- C4: the merged table's row list is the concatenation, in input order,
of one block per loaded table, each block being that (stamped) table's
rows in their original order re-projected onto the final columns; hence
every row of an earlier table precedes every row of a later table, and
each table's internal row order is preserved. -/
theorem C4_row_order (it cco : Bool) (fs : List (String × Frame)) :
    (merged it cco fs).rows
      = (fs.map (blockRows it (merged it cco fs).cols)).flatten :=
  rows_merged it cco fs

/-- C5: with `add_type_column` set, "Type" is a column of the merged table
(even when no loaded table has one), and every output row carries in its
"Type" cell the sheet identifier of the table it originated from —
overwriting any pre-existing "Type" column, since `setCol` assigns the
sheet name to the whole column. -/
theorem C5_type_column (cco : Bool) (fs : List (String × Frame))
    (hWF : ∀ p ∈ fs, p.2.WF) :
    "Type" ∈ (merged true cco fs).cols
    ∧ (merged true cco fs).rows
        = (fs.map (blockRows true (merged true cco fs).cols)).flatten
    ∧ ∀ p ∈ fs, ∀ r ∈ blockRows true (merged true cco fs).cols p,
        cellAt (merged true cco fs).cols r "Type" = some p.1 := by
  refine ⟨type_mem_merged cco fs, rows_merged true cco fs, ?_⟩
  intro p hp r hr
  exact cellAt_blockRows_type (hWF p hp) (type_mem_merged cco fs) r hr

/-- C5 witness: the theorem applied to the concrete input `exFs`. -/
theorem C5_type_column_witness :
    (∀ p ∈ exFs, p.2.WF)
    ∧ ("Type" ∈ (merged true false exFs).cols
      ∧ (merged true false exFs).rows
          = (exFs.map (blockRows true (merged true false exFs).cols)).flatten
      ∧ ∀ p ∈ exFs, ∀ r ∈ blockRows true (merged true false exFs).cols p,
          cellAt (merged true false exFs).cols r "Type" = some p.1) :=
  ⟨by decide, C5_type_column false exFs (by decide)⟩

/-- C6 counterexample: with two loaded tables having disjoint columns
("x" and "y") in intersection mode, after the first iteration the
accumulated table's column set no longer contains "y", while the column
set computed by `compileColumns` does — so the accumulated column set
does not stay equal to the compiled one in intersection mode. -/
theorem C6_counterexample :
    "y" ∈ compileColumns exFs2 false
    ∧ "y" ∉ (mergedAfter false true exFs2 1).cols := by
  decide

/-- C6 amended: the column set is compiled once, before the loop; in union
mode the accumulated table's column set equals the compiled set after
every iteration; in intersection mode, after `n` iterations it equals the
compiled set restricted to the columns of the first `n` (stamped) tables,
so it may shrink strictly below the compiled set. -/
theorem C6_column_set_stability (it : Bool) (fs : List (String × Frame))
    (n : Nat) (c : String) :
    (c ∈ (mergedAfter it false fs n).cols ↔ c ∈ compileColumns fs it)
    ∧ (c ∈ (mergedAfter it true fs n).cols ↔
        c ∈ compileColumns fs it ∧
          ∀ p ∈ fs.take n, c ∈ (stampFrame it p).2.cols) := by
  constructor
  · have h : mergedAfter it false fs n
        = mergeLoop it .outer ⟨compileColumns fs it, []⟩ (fs.take n) := rfl
    rw [h, cols_mergeLoop_outer]
    constructor
    · rintro (h0 | ⟨p, hp, hc⟩)
      · exact h0
      · rcases (cols_stampFrame it p c).mp hc with hc' | hT
        · exact mem_compileColumns.mpr
            (Or.inr ⟨p, List.mem_of_mem_take hp, hc'⟩)
        · exact mem_compileColumns.mpr (Or.inl hT)
    · exact Or.inl
  · exact cols_mergeLoop_inner it ⟨compileColumns fs it, []⟩ (fs.take n) c

/-- C7 counterexample: with zero loaded tables and `add_type_column` set,
the compiled column set is `["Type"]`, not empty, and the merged table has
the column "Type" — the claim's "empty column set for every value of
`add_type_column`" fails. -/
theorem C7_counterexample :
    compileColumns [] true = ["Type"]
    ∧ "Type" ∈ (merged true false []).cols := by
  decide

/-- C7 amended: with zero loaded tables the merged table has no rows in
every configuration; the column set (and the merged table's columns) are
empty when `add_type_column` is false, and are exactly `["Type"]` when
`add_type_column` is true, in both join modes. -/
theorem C7_empty_input (it cco : Bool) :
    (merged it cco []).rows = []
    ∧ compileColumns [] false = []
    ∧ compileColumns [] true = ["Type"]
    ∧ (merged false cco []).cols = []
    ∧ (merged true cco []).cols = ["Type"] := by
  cases it <;> cases cco <;> decide

/-- C8: the merge is a total function on arbitrary column sets and never
errors; in union mode a column absent from a table yields `none` (missing)
cells throughout that table's block, and in intersection mode every output
column is present in every (stamped) loaded table, i.e. non-shared columns
are dropped. -/
theorem C8_mismatched_columns (it : Bool) (fs : List (String × Frame)) :
    ((merged it false fs).rows
        = (fs.map (blockRows it (merged it false fs).cols)).flatten
      ∧ ∀ p ∈ fs, ∀ r ∈ blockRows it (merged it false fs).cols p,
          ∀ c, c ∉ (stampFrame it p).2.cols →
            cellAt (merged it false fs).cols r c = none)
    ∧ (∀ c ∈ (merged it true fs).cols, ∀ p ∈ fs,
        c ∈ (stampFrame it p).2.cols) := by
  refine ⟨⟨rows_merged it false fs, ?_⟩, ?_⟩
  · intro p _ r hr c hc
    exact cellAt_blockRows_not_mem hc r hr
  · intro c hc p hp
    exact ((cols_merged_inter_raw it fs c).mp hc).2 p hp

/-- C8 witness: the theorem applied to the concrete mismatched input
`exMix`, whose two tables have disjoint column sets. -/
theorem C8_mismatched_columns_witness :
    ((merged false false exMix).rows
        = (exMix.map (blockRows false (merged false false exMix).cols)).flatten
      ∧ ∀ p ∈ exMix, ∀ r ∈ blockRows false (merged false false exMix).cols p,
          ∀ c, c ∉ (stampFrame false p).2.cols →
            cellAt (merged false false exMix).cols r c = none)
    ∧ (∀ c ∈ (merged false true exMix).cols, ∀ p ∈ exMix,
        c ∈ (stampFrame false p).2.cols) :=
  C8_mismatched_columns false exMix

/-- C9: the merge mutates a loaded table only by the optional "Type"
column insertion: without `include_type` the loaded frames are returned
unchanged, and with it each frame keeps its sheet name, its row count, and
— for every column other than "Type" — its column membership and every
cell value at every row position. -/
theorem C9_frame_condition (it : Bool) (fs : List (String × Frame))
    (hWF : ∀ p ∈ fs, p.2.WF) :
    framesAfter false fs = fs
    ∧ ∀ p ∈ fs,
        (stampFrame it p).1 = p.1
        ∧ (stampFrame it p).2.rows.length = p.2.rows.length
        ∧ ∀ c, c ≠ "Type" →
            ((c ∈ (stampFrame it p).2.cols ↔ c ∈ p.2.cols)
             ∧ ∀ j : Nat,
                cellAt (stampFrame it p).2.cols
                    ((stampFrame it p).2.rows.getD j []) c
                  = cellAt p.2.cols (p.2.rows.getD j []) c) := by
  refine ⟨?_, ?_⟩
  · have h : fs.map (stampFrame false) = fs.map id :=
      List.map_congr_left (fun p _ => stampFrame_false p)
    rw [framesAfter, h, List.map_id]
  · intro p hp
    refine ⟨stampFrame_fst it p, rows_length_stampFrame it p, ?_⟩
    intro c hc
    constructor
    · rw [cols_stampFrame]
      constructor
      · rintro (h | ⟨_, hT⟩)
        · exact h
        · exact absurd hT hc
      · exact Or.inl
    · intro j
      exact cellAt_stampFrame_ne (hWF p hp) hc it j

/-- C9 witness: the theorem applied to the concrete input `exFs` with the
"Type" stamping enabled. -/
theorem C9_frame_condition_witness :
    (∀ p ∈ exFs, p.2.WF)
    ∧ (framesAfter false exFs = exFs
      ∧ ∀ p ∈ exFs,
          (stampFrame true p).1 = p.1
          ∧ (stampFrame true p).2.rows.length = p.2.rows.length
          ∧ ∀ c, c ≠ "Type" →
              ((c ∈ (stampFrame true p).2.cols ↔ c ∈ p.2.cols)
               ∧ ∀ j : Nat,
                  cellAt (stampFrame true p).2.cols
                      ((stampFrame true p).2.rows.getD j []) c
                    = cellAt p.2.cols (p.2.rows.getD j []) c)) :=
  ⟨by decide, C9_frame_condition true exFs (by decide)⟩

/-- C10: whenever `add_type_column` is true, "Type" is in the compiled
column set (the reconciler adds it before collecting table columns), every
loaded table is stamped with a "Type" column before concatenation, and
"Type" is a column of the merged table in both join modes — intersection
included. -/
theorem C10_type_survives (cco : Bool) (fs : List (String × Frame)) :
    "Type" ∈ compileColumns fs true
    ∧ (∀ p ∈ fs, "Type" ∈ (stampFrame true p).2.cols)
    ∧ "Type" ∈ (merged true cco fs).cols := by
  refine ⟨mem_compileColumns.mpr (Or.inl ⟨rfl, rfl⟩), ?_,
    type_mem_merged cco fs⟩
  intro p _
  exact (cols_stampFrame true p "Type").mpr (Or.inr ⟨rfl, rfl⟩)

end Xlsxmerge
